import Mathlib

/-!
Shallow embedding of the text-to-training-example pipeline of
`word_language_model.ipynb` (cells 3, 8, 9, 10 and 17).

Strings are modelled as lists of Unicode code points (`List Nat`), exactly the
sequence-of-code-points view that Python strings have.  The character classes
used by the notebook (`string.punctuation`, `str.isalpha`, `str.lower`,
whitespace for `str.split` / `str.strip`) are modelled on the ASCII range,
which is the range the notebook data exercises; the Python originals extend
the letter classes to non-ASCII Unicode but agree with this model on ASCII.

The Keras `Tokenizer` / `pad_sequences` behaviour (cell 9) is modelled from
the keras_preprocessing reference semantics of the exact calls the notebook
makes (default arguments: `filters` equal to punctuation without the
apostrophe plus tab and newline, `lower=True`, `split=' '`, `padding='pre'`,
no `num_words`, no `oov_token`): fitting counts words of each text,
sorts them by decreasing count (stable), and assigns ids 1..n in that order;
`texts_to_sequences` maps the words of a text to their ids; `pad_sequences`
left-pads with 0 to the requested length.
-/

/-- Code points of a Lean string literal, for writing concrete inputs. -/
def strN (s : String) : List Nat := s.toList.map Char.toNat

/-- The sentence-boundary marker of the notebook: code points of the
string assigned to the `eos` variable in cell 3 (`"<eos>"`). -/
def eos : List Nat := [60, 101, 111, 115, 62]

/-- Python `str.split()` whitespace class (ASCII part): space, tab, newline,
carriage return, vertical tab, form feed. -/
def isSpaceCh (c : Nat) : Bool :=
  decide (c = 32) || decide (c = 9) || decide (c = 10) ||
  decide (c = 13) || decide (c = 11) || decide (c = 12)

/-- Membership in Python `string.punctuation` (the ASCII ranges 33-47, 58-64,
91-96, 123-126). -/
def isPunctCh (c : Nat) : Bool :=
  (decide (33 ≤ c) && decide (c ≤ 47)) || (decide (58 ≤ c) && decide (c ≤ 64)) ||
  (decide (91 ≤ c) && decide (c ≤ 96)) || (decide (123 ≤ c) && decide (c ≤ 126))

/-- ASCII letter (the ASCII part of Python `str.isalpha`). -/
def isAlphaCh (c : Nat) : Bool :=
  (decide (65 ≤ c) && decide (c ≤ 90)) || (decide (97 ≤ c) && decide (c ≤ 122))

/-- ASCII uppercase letter. -/
def isUpperCh (c : Nat) : Bool := decide (65 ≤ c) && decide (c ≤ 90)

/-- Python `str.lower` on one ASCII code point. -/
def lowerCh (c : Nat) : Nat := if isUpperCh c then c + 32 else c

/-- Python `str.isalpha`: nonempty and all letters. -/
def pyIsAlpha (w : List Nat) : Bool := !w.isEmpty && w.all isAlphaCh

/-- Split on runs of characters satisfying `p`, discarding empty pieces
(the accumulator holds the current piece reversed). -/
def splitRunAux (p : Nat → Bool) : List Nat → List Nat → List (List Nat)
  | [], acc => if acc.isEmpty then [] else [acc.reverse]
  | c :: rest, acc =>
    if p c then
      if acc.isEmpty then splitRunAux p rest [] else acc.reverse :: splitRunAux p rest []
    else splitRunAux p rest (c :: acc)

/-- Python `str.split()` (split on whitespace runs, no empty pieces). -/
def splitWS (s : List Nat) : List (List Nat) := splitRunAux isSpaceCh s []

/-- Keras tokenization split: `text.split(' ')` followed by dropping empty
pieces, which is the same as splitting on runs of the space character. -/
def splitSpace (s : List Nat) : List (List Nat) :=
  splitRunAux (fun c => decide (c = 32)) s []

/-- Python single-character `str.replace`: every occurrence of the character
`c` is replaced by the string `r`. -/
def replCh (c : Nat) (r : List Nat) (s : List Nat) : List Nat :=
  s.foldr (fun a acc => (if a = c then r else [a]) ++ acc) []

/-- Cell 3 `parse_text`: per record, remove newlines and apostrophes and
replace each period by a spaced eos tag, then concatenate everything
(`full_text += entry`, with no separator between records). -/
def parse_text (data : List (List Nat)) : List Nat :=
  (data.map (fun text =>
    replCh 46 ([32] ++ eos ++ [32]) (replCh 39 [] (replCh 10 [] text)))).foldl
    (· ++ ·) []

/-- Substring test, Python `pat in s` for strings. -/
def hasSub (pat : List Nat) : List Nat → Bool
  | [] => pat.isEmpty
  | c :: rest => pat.isPrefixOf (c :: rest) || hasSub pat rest

/-- Cell 3 `clean_text`: split on whitespace; strip punctuation from every
token that does not contain the eos tag; keep only tokens that are alphabetic
or contain the eos tag; lowercase the survivors. -/
def clean_text (doc : List Nat) : List (List Nat) :=
  let tokens := splitWS doc
  let tokens2 := tokens.map (fun w =>
    if hasSub eos w then w else w.filter (fun c => !isPunctCh c))
  let tokens3 := tokens2.filter (fun w => pyIsAlpha w || hasSub eos w)
  tokens3.map (fun w => w.map lowerCh)

/-- Cell 8 `length = 10 + 1`: the window size. -/
def winLength : Nat := 10 + 1

/-- The candidate windows of cell 8: for `i in range(length, len(tokens))`,
the slice `tokens[i-length:i]`; re-indexed by the start position `j = i - length`. -/
def candidateWindows (tokens : List (List Nat)) : List (List (List Nat)) :=
  (List.range (tokens.length - winLength)).map
    (fun j => (tokens.drop j).take winLength)

/-- Python `' '.join(seq)`. -/
def joinSpace : List (List Nat) → List Nat
  | [] => []
  | [w] => w
  | w :: ws => w ++ 32 :: joinSpace ws

/-- Python `str.strip()`: drop whitespace from both ends. -/
def pyStrip (s : List Nat) : List Nat :=
  ((s.dropWhile isSpaceCh).reverse.dropWhile isSpaceCh).reverse

/-- Python `line.split(eos)` scanning: the accumulator holds the current piece
reversed; when the eos tag starts at the current position the piece is closed
and the four remaining tag characters are skipped via the middle argument. -/
def splitEosAux : List Nat → Nat → List Nat → List (List Nat)
  | [], _, acc => [acc.reverse]
  | _ :: rest, skip + 1, acc => splitEosAux rest skip acc
  | c :: rest, 0, acc =>
    if eos.isPrefixOf (c :: rest) then acc.reverse :: splitEosAux rest 4 []
    else splitEosAux rest 0 (c :: acc)

/-- Python `line.split(eos)`: the pieces of `s` between occurrences of the
eos tag. -/
def splitEos (s : List Nat) : List (List Nat) := splitEosAux s 0 []

/-- The trimming step of cell 8 applied to one joined window `line`.
`none` models the `except: continue` path (the two-variable unpacking of
`line.split(eos)` raises unless the split has exactly two pieces).
`line[:-4]` and `line[4:]` are Python slices (note `[:-4]` drops only four of
the five characters of the tag). -/
def trimLine (line : List Nat) : Option (List Nat) :=
  if hasSub eos line then
    if eos.isSuffixOf line then some (pyStrip (line.take (line.length - 4)))
    else if eos.isPrefixOf line then some (pyStrip (line.drop 4))
    else
      match splitEos line with
      | [front, back] =>
          some (pyStrip (if back.length < front.length then front else back))
      | _ => none
  else some line

/-- Cell 8 `sequences`: each candidate window is joined and trimmed; windows
on which trimming raises are skipped and processing continues. -/
def sequences (tokens : List (List Nat)) : List (List Nat) :=
  (candidateWindows tokens).filterMap (fun seq => trimLine (joinSpace seq))

/-- Characters removed by the default Keras `Tokenizer` filters:
`string.punctuation` without the apostrophe, plus tab and newline. -/
def kerasFilterCh (c : Nat) : Bool :=
  (isPunctCh c && !(decide (c = 39))) || decide (c = 9) || decide (c = 10)

/-- keras text_to_word_sequence with the notebook defaults: lowercase,
replace filtered characters by the split character, split. -/
def text_to_word_sequence (t : List Nat) : List (List Nat) :=
  splitSpace ((t.map lowerCh).map (fun c => if kerasFilterCh c then 32 else c))

/-- One counting step of `Tokenizer.fit_on_texts`: increment the count of `w`
in the ordered association list `acc`, appending a new entry on first sight. -/
def bump (acc : List (List Nat × Nat)) (w : List Nat) : List (List Nat × Nat) :=
  if acc.any (fun p => p.1 == w) then
    acc.map (fun p => if p.1 == w then (p.1, p.2 + 1) else p)
  else acc ++ [(w, 1)]

/-- The ordered word counts of `Tokenizer.fit_on_texts` (the tokenizer
iterates texts and then words, which is folding over the flattened word
stream). -/
def word_counts (texts : List (List Nat)) : List (List Nat × Nat) :=
  (texts.flatMap text_to_word_sequence).foldl bump []

/-- Stable insertion (descending by count) used by `sortDesc`. -/
def insDesc (x : List Nat × Nat) : List (List Nat × Nat) → List (List Nat × Nat)
  | [] => [x]
  | y :: ys => if y.2 ≤ x.2 then x :: y :: ys else y :: insDesc x ys

/-- Stable sort by decreasing count, the semantics of Python
`wcounts.sort(key=lambda x: x[1], reverse=True)`. -/
def sortDesc : List (List Nat × Nat) → List (List Nat × Nat)
  | [] => []
  | x :: xs => insDesc x (sortDesc xs)

/-- The tokenizer vocabulary in id order (most frequent first, ties in first
occurrence order). -/
def sorted_voc (texts : List (List Nat)) : List (List Nat) :=
  (sortDesc (word_counts texts)).map (fun p => p.1)

/-- `tokenizer.word_index`: words zipped with ids 1..n. -/
def word_index (texts : List (List Nat)) : List (List Nat × Nat) :=
  (sorted_voc texts).enum.map (fun p => (p.2, p.1 + 1))

/-- Dictionary lookup of the id of a word. -/
def lookupId (wi : List (List Nat × Nat)) (w : List Nat) : Option Nat :=
  (wi.find? (fun p => p.1 == w)).map (fun p => p.2)

/-- `tokenizer.texts_to_sequences`: words of each text mapped to ids, words
missing from the vocabulary dropped. -/
def texts_to_sequences (wi : List (List Nat × Nat)) (texts : List (List Nat)) :
    List (List Nat) :=
  texts.map (fun t => (text_to_word_sequence t).filterMap (lookupId wi))

/-- The word index the notebook fits on its `sequences` (cell 9). -/
def fittedIndex (toks : List (List Nat)) : List (List Nat × Nat) :=
  word_index (sequences toks)

/-- Cell 9 `tokenized_sequences`. -/
def tokenized_sequences (toks : List (List Nat)) : List (List Nat) :=
  texts_to_sequences (fittedIndex toks) (sequences toks)

/-- Cell 9 `max_sequence_len = max([len(x) for x in tokenized_sequences])`
(the Python `max` raises on an empty list; the fold returns 0 there, and no
padded row exists in that case). -/
def max_sequence_len (toks : List (List Nat)) : Nat :=
  ((tokenized_sequences toks).map List.length).foldl max 0

/-- keras `pad_sequences` on one row with `padding='pre'` (and the default
`truncating='pre'`, which keeps the last `m` entries). -/
def padPre (m : Nat) (s : List Nat) : List Nat :=
  if m ≤ s.length then s.drop (s.length - m) else List.replicate (m - s.length) 0 ++ s

/-- keras `pad_sequences`. -/
def pad_sequences (m : Nat) (ss : List (List Nat)) : List (List Nat) :=
  ss.map (padPre m)

/-- Cell 9 `input_sequences`. -/
def input_sequences (toks : List (List Nat)) : List (List Nat) :=
  pad_sequences (max_sequence_len toks) (tokenized_sequences toks)

/-- Cell 10 `vocab_size = len(tokenizer.word_index) + 1`. -/
def vocab_size (toks : List (List Nat)) : Nat := (fittedIndex toks).length + 1

/-- Cell 17 `index_word_lookup = dict([[v,k] for k,v in word_index.items()])`. -/
def index_word_lookup (wi : List (List Nat × Nat)) : List (Nat × List Nat) :=
  wi.map (fun p => (p.2, p.1))

/-- Dictionary lookup of the word of an id in the inverted table. -/
def lookupWord (iwl : List (Nat × List Nat)) (i : Nat) : Option (List Nat) :=
  (iwl.find? (fun p => p.1 == i)).map (fun p => p.2)

/-- Encoding one produced window: its id sequence under the fitted index
(what `texts_to_sequences` computes for that window). -/
def encodeLine (toks : List (List Nat)) (line : List Nat) : List Nat :=
  (text_to_word_sequence line).filterMap (lookupId (fittedIndex toks))

/-- Decoding an id sequence through the inverted lookup of cell 17. -/
def decodeIds (toks : List (List Nat)) (ids : List Nat) : List (List Nat) :=
  ids.filterMap (lookupWord (index_word_lookup (fittedIndex toks)))

/-! Concrete inputs used by witnesses and counterexamples -/

/-- The ten alphabetic tokens a..j. -/
def aW10 : List (List Nat) :=
  [[97], [98], [99], [100], [101], [102], [103], [104], [105], [106]]

/-- An 11-token window with the eos marker at both ends (a..i between). -/
def winC1 : List (List Nat) :=
  [eos, [97], [98], [99], [100], [101], [102], [103], [104], [105], eos]

/-- Interior-marker window sides for the C3 witness: front side "ab". -/
def aC3 : List (List Nat) := [[97, 98]]

/-- Interior-marker window sides for the C3 witness: back side c..k. -/
def bC3 : List (List Nat) :=
  [[99], [100], [101], [102], [103], [104], [105], [106], [107]]

/-- An 11-token window with two interior markers (for the C4 witness). -/
def wC4 : List (List Nat) :=
  [[97], eos, [98], [99], [100], eos, [101], [102], [103], [104], [105]]

/-- Twelve tokens a..j, eos, z: its single candidate window ends in the
marker. -/
def ex12 : List (List Nat) := aW10 ++ [eos, [122]]

/-- The single window produced from `ex12` (with the residue character). -/
def lineC8 : List Nat := strN ("a b c d e f g h i j <")

/-- Twelve tokens a..e, eos, f..j, z: its single candidate window has one
interior marker with equally long sides. -/
def ex5 : List (List Nat) :=
  [[97], [98], [99], [100], [101], eos, [102], [103], [104], [105], [106], [122]]

/-- Eleven alphabetic tokens (a..k): too short to produce any window. -/
def ex11 : List (List Nat) := aW10 ++ [[107]]

/-- Thirteen alphabetic tokens (a..m). -/
def ex13 : List (List Nat) := aW10 ++ [[107], [108], [109]]

/-- The input records of the worked example in the specification. -/
def exRecords : List (List Nat) :=
  [strN ("Great food. Loved it"), strN ("Terrible service.")]

/-! Basic facts about characters and the helper functions -/

theorem lowerCh_idem (c : Nat) : lowerCh (lowerCh c) = lowerCh c := by
  simp only [lowerCh, isUpperCh, Bool.and_eq_true, decide_eq_true_eq]
  split
  · rw [if_neg (by omega)]
  · rfl

theorem isAlphaCh_lowerCh (c : Nat) (h : isAlphaCh c = true) :
    isAlphaCh (lowerCh c) = true := by
  simp only [lowerCh, isUpperCh, isAlphaCh, Bool.and_eq_true, Bool.or_eq_true,
    decide_eq_true_eq] at h ⊢
  split <;> omega

theorem pyIsAlpha_spec (w : List Nat) (h : pyIsAlpha w = true) :
    w ≠ [] ∧ ∀ c ∈ w, isAlphaCh c = true := by
  simp only [pyIsAlpha, Bool.and_eq_true, List.all_eq_true, Bool.not_eq_true'] at h
  refine ⟨?_, h.2⟩
  intro hnil
  subst hnil
  simp at h

theorem alphaCh_ne (c : Nat) (h : isAlphaCh c = true) :
    c ≠ 60 ∧ c ≠ 62 ∧ isSpaceCh c = false := by
  simp only [isAlphaCh, Bool.or_eq_true, Bool.and_eq_true, decide_eq_true_eq] at h
  refine ⟨by omega, by omega, ?_⟩
  simp only [isSpaceCh, Bool.or_eq_false_iff, decide_eq_false_iff_not]
  omega

theorem isPreBridge {l₁ l₂ : List Nat} : l₁.isPrefixOf l₂ = true ↔ l₁ <+: l₂ :=
  List.isPrefixOf_iff_prefix

theorem isSufBridge {l₁ l₂ : List Nat} : l₁.isSuffixOf l₂ = true ↔ l₁ <:+ l₂ :=
  List.isSuffixOf_iff_suffix

theorem hasSub_iff (pat : List Nat) :
    ∀ s : List Nat, hasSub pat s = true ↔ pat <:+: s := by
  intro s
  induction s with
  | nil =>
      simp [hasSub, List.infix_nil, List.isEmpty_iff]
  | cons c rest ih =>
      rw [List.infix_cons_iff]
      simp [hasSub, Bool.or_eq_true, isPreBridge, ih]

theorem hasSub_eos_false (s : List Nat) (h : 60 ∉ s) : hasSub eos s = false := by
  cases hs : hasSub eos s with
  | false => rfl
  | true =>
      have hinf := (hasSub_iff eos s).mp hs
      have : (60 : Nat) ∈ s := hinf.sublist.subset (by decide)
      exact absurd this h

theorem hasSub_eos_snoc60 (t : List Nat) (h : 60 ∉ t) :
    hasSub eos (t ++ [60]) = false := by
  cases hs : hasSub eos (t ++ [60]) with
  | false => rfl
  | true =>
      exfalso
      obtain ⟨u, v, huv⟩ := (hasSub_iff eos (t ++ [60])).mp hs
      have hlast : (t ++ [60]).getLast? = some 60 := by
        simp [List.getLast?_append]
      rcases List.eq_nil_or_concat v with rfl | ⟨L, d, rfl⟩
      · rw [← huv, List.append_nil, List.getLast?_append,
          show eos.getLast? = some 62 from rfl] at hlast
        simp at hlast
      · simp only [List.concat_eq_append] at huv
        rw [← huv, List.getLast?_append, List.getLast?_append] at hlast
        simp at hlast
        subst hlast
        have hc1 : (t ++ [60]).count 60 = 1 := by
          rw [List.count_append, List.count_eq_zero.mpr h]
          rfl
        rw [← huv, List.count_append, List.count_append,
          List.count_append] at hc1
        have he : eos.count 60 = 1 := by decide
        have h60 : ([60] : List Nat).count 60 = 1 := by decide
        omega

/-! joinSpace lemmas -/

theorem joinSpace_cons (w : List Nat) (ws : List (List Nat)) (h : ws ≠ []) :
    joinSpace (w :: ws) = w ++ 32 :: joinSpace ws := by
  cases ws with
  | nil => exact absurd rfl h
  | cons x xs => rfl

theorem joinSpace_append (xs ys : List (List Nat)) (hx : xs ≠ []) (hy : ys ≠ []) :
    joinSpace (xs ++ ys) = joinSpace xs ++ 32 :: joinSpace ys := by
  induction xs with
  | nil => exact absurd rfl hx
  | cons x xs ih =>
      cases xs with
      | nil =>
          cases ys with
          | nil => exact absurd rfl hy
          | cons y ys0 => rfl
      | cons a as =>
          rw [List.cons_append,
            joinSpace_cons x ((a :: as) ++ ys) (by simp),
            joinSpace_cons x (a :: as) (by simp),
            ih (by simp)]
          simp

theorem mem_joinSpace (c : Nat) :
    ∀ w : List (List Nat), c ∈ joinSpace w → c = 32 ∨ ∃ t ∈ w, c ∈ t := by
  intro w
  induction w with
  | nil => simp [joinSpace]
  | cons t ws ih =>
      intro hc
      cases ws with
      | nil =>
          exact Or.inr ⟨t, by simp, hc⟩
      | cons a as =>
          rw [joinSpace_cons t (a :: as) (by simp)] at hc
          rcases List.mem_append.mp hc with h1 | h2
          · exact Or.inr ⟨t, by simp, h1⟩
          · rcases List.mem_cons.mp h2 with rfl | h3
            · exact Or.inl rfl
            · rcases ih h3 with h4 | ⟨u, hu, hcu⟩
              · exact Or.inl h4
              · exact Or.inr ⟨u, List.mem_cons_of_mem t hu, hcu⟩

theorem not60_joinSpace (w : List (List Nat))
    (hw : ∀ t ∈ w, pyIsAlpha t = true) : (60 : Nat) ∉ joinSpace w := by
  intro hmem
  rcases mem_joinSpace 60 w hmem with h | ⟨t, ht, hct⟩
  · omega
  · exact absurd rfl (alphaCh_ne 60 ((pyIsAlpha_spec t (hw t ht)).2 60 hct)).1

theorem joinSpace_head? (t : List Nat) (ws : List (List Nat)) (ht : t ≠ []) :
    (joinSpace (t :: ws)).head? = t.head? := by
  cases ws with
  | nil => rfl
  | cons a as =>
      rw [joinSpace_cons t (a :: as) (by simp)]
      cases t with
      | nil => exact absurd rfl ht
      | cons c cs => rfl

theorem joinSpace_getLast? (w : List (List Nat)) (t : List Nat)
    (hlast : w.getLast? = some t) (ht : t ≠ []) :
    (joinSpace w).getLast? = t.getLast? := by
  induction w with
  | nil => simp at hlast
  | cons x ws ih =>
      cases ws with
      | nil =>
          simp at hlast
          subst hlast
          rfl
      | cons a as =>
          have hlast2 : (a :: as).getLast? = some t := by
            rw [List.getLast?_cons_cons] at hlast
            exact hlast
          have hJ := ih hlast2
          rw [joinSpace_cons x (a :: as) (by simp)]
          have ht2 : t.getLast? = some (t.getLast ht) := List.getLast?_eq_getLast t ht
          rw [show x ++ 32 :: joinSpace (a :: as) = x ++ ([32] ++ joinSpace (a :: as))
              by simp,
            List.getLast?_append, List.getLast?_append, hJ, ht2]
          rfl

theorem joinSpace_ne_nil (w : List (List Nat)) (t : List Nat)
    (hlast : w.getLast? = some t) (ht : t ≠ []) : joinSpace w ≠ [] := by
  intro hnil
  have h1 := joinSpace_getLast? w t hlast ht
  rw [hnil] at h1
  have h2 := List.getLast?_eq_getLast t ht
  rw [h2] at h1
  simp at h1

/-! splitEos lemmas -/

theorem eos_not_pre (c : Nat) (s : List Nat) (hc : c ≠ 60) :
    eos.isPrefixOf (c :: s) = false := by
  have h : (60 == c) = false := beq_eq_false_iff_ne.mpr (Ne.symm hc)
  simp [eos, List.isPrefixOf, h]

theorem splitEosAux_pass (t : List Nat) (ht : 60 ∉ t) :
    ∀ (r acc : List Nat),
      splitEosAux (t ++ r) 0 acc = splitEosAux r 0 (t.reverse ++ acc) := by
  induction t with
  | nil => intro r acc; simp
  | cons c t ih =>
      intro r acc
      have hc : c ≠ 60 := fun hcc => ht (hcc ▸ List.mem_cons_self c t)
      have ht2 : 60 ∉ t := fun hm => ht (List.mem_cons_of_mem c hm)
      rw [List.cons_append, splitEosAux, eos_not_pre c (t ++ r) hc]
      simp only [Bool.false_eq_true, if_false]
      rw [ih ht2 r (c :: acc)]
      simp

theorem splitEosAux_at_eos (r acc : List Nat) :
    splitEosAux (eos ++ r) 0 acc = acc.reverse :: splitEosAux r 0 [] := by
  show splitEosAux (60 :: 101 :: 111 :: 115 :: 62 :: r) 0 acc = _
  rw [splitEosAux, if_pos]
  · rfl
  · simp [eos, List.isPrefixOf]

theorem splitEosAux_clean (s : List Nat) (hs : 60 ∉ s) (acc : List Nat) :
    splitEosAux s 0 acc = [acc.reverse ++ s] := by
  have h := splitEosAux_pass s hs [] acc
  rw [List.append_nil] at h
  rw [h]
  simp [splitEosAux]

theorem splitEos_pair (A B : List Nat) (hA : 60 ∉ A) (hB : 60 ∉ B) :
    splitEos (A ++ eos ++ B) = [A, B] := by
  rw [splitEos, List.append_assoc, splitEosAux_pass A hA (eos ++ B) [],
    splitEosAux_at_eos, splitEosAux_clean B hB]
  simp

theorem splitEosAux_join_length (w : List (List Nat)) :
    ∀ acc : List Nat, (∀ t ∈ w, pyIsAlpha t = true ∨ t = eos) →
      (splitEosAux (joinSpace w) 0 acc).length = w.count eos + 1 := by
  induction w with
  | nil => intro acc _; simp [joinSpace, splitEosAux]
  | cons t ws ih =>
      intro acc hw
      have ht := hw t (by simp)
      have hws : ∀ u ∈ ws, pyIsAlpha u = true ∨ u = eos :=
        fun u hu => hw u (List.mem_cons_of_mem t hu)
      cases ws with
      | nil =>
          rcases ht with hal | heq
          · have h60 : 60 ∉ t := by
              intro hm
              exact absurd rfl
                (alphaCh_ne 60 ((pyIsAlpha_spec t hal).2 60 hm)).1
            have hne : t ≠ eos := by
              intro he
              have := (pyIsAlpha_spec t hal).2 60 (by rw [he]; decide)
              exact absurd rfl (alphaCh_ne 60 this).1
            rw [show joinSpace [t] = t from rfl, splitEosAux_clean t h60]
            simp [List.count_cons, beq_eq_false_iff_ne.mpr hne]
          · subst heq
            rw [show joinSpace [eos] = eos from rfl,
              show eos = eos ++ ([] : List Nat) by simp, splitEosAux_at_eos]
            simp [splitEosAux, List.count_cons]
      | cons a as =>
          rw [joinSpace_cons t (a :: as) (by simp)]
          rcases ht with hal | heq
          · have h60 : 60 ∉ t := by
              intro hm
              exact absurd rfl
                (alphaCh_ne 60 ((pyIsAlpha_spec t hal).2 60 hm)).1
            have hne : t ≠ eos := by
              intro he
              have := (pyIsAlpha_spec t hal).2 60 (by rw [he]; decide)
              exact absurd rfl (alphaCh_ne 60 this).1
            rw [show t ++ 32 :: joinSpace (a :: as) =
                (t ++ [32]) ++ joinSpace (a :: as) by simp,
              splitEosAux_pass (t ++ [32]) (by simp [h60]) _ acc,
              ih _ hws]
            simp [List.count_cons, beq_eq_false_iff_ne.mpr hne]
          · subst heq
            rw [show eos ++ 32 :: joinSpace (a :: as) =
                eos ++ ([32] ++ joinSpace (a :: as)) by simp,
              splitEosAux_at_eos,
              show ([32] ++ joinSpace (a :: as)) =
                ([32] ++ joinSpace (a :: as)) from rfl]
            rw [show splitEosAux ([32] ++ joinSpace (a :: as)) 0 [] =
                splitEosAux (joinSpace (a :: as)) 0 ([32].reverse ++ []) from
                splitEosAux_pass [32] (by decide) _ []]
            rw [List.length_cons, ih _ hws]
            simp [List.count_cons]

/-! pyStrip lemmas -/

theorem pyStrip_eq_self (s : List Nat)
    (h1 : ∀ c, s.head? = some c → isSpaceCh c = false)
    (h2 : ∀ c, s.getLast? = some c → isSpaceCh c = false) : pyStrip s = s := by
  have e1 : s.dropWhile isSpaceCh = s := by
    cases s with
    | nil => rfl
    | cons c t =>
        rw [List.dropWhile_cons, h1 c rfl]
        simp
  have e2 : s.reverse.dropWhile isSpaceCh = s.reverse := by
    cases hrev : s.reverse with
    | nil => rfl
    | cons c t =>
        have hc : s.getLast? = some c := by
          rw [← List.head?_reverse, hrev]
          rfl
        rw [List.dropWhile_cons, h2 c hc]
        simp
  rw [pyStrip, e1, e2, List.reverse_reverse]

theorem pyStrip_snoc_space (s : List Nat)
    (h1 : ∀ c, s.head? = some c → isSpaceCh c = false)
    (h2 : ∀ c, s.getLast? = some c → isSpaceCh c = false) :
    pyStrip (s ++ [32]) = s := by
  cases s with
  | nil => decide
  | cons c t =>
      have hc : isSpaceCh c = false := h1 c rfl
      have e1 : ((c :: t) ++ [32]).dropWhile isSpaceCh = (c :: t) ++ [32] := by
        rw [List.cons_append, List.dropWhile_cons, hc]
        simp
      have e2 : ((c :: t) ++ [32]).reverse = 32 :: (c :: t).reverse := by
        rw [List.reverse_append]
        rfl
      have e3 : (32 :: (c :: t).reverse).dropWhile isSpaceCh =
          (c :: t).reverse.dropWhile isSpaceCh := by
        rw [List.dropWhile_cons]
        simp [isSpaceCh]
      have e4 : (c :: t).reverse.dropWhile isSpaceCh = (c :: t).reverse := by
        cases hrev : (c :: t).reverse with
        | nil => rfl
        | cons d Y =>
            have hd : (c :: t).getLast? = some d := by
              rw [← List.head?_reverse, hrev]
              rfl
            rw [List.dropWhile_cons, h2 d hd]
            simp
      rw [pyStrip, e1, e2, e3, e4, List.reverse_reverse]

theorem pyStrip_cons_space (s : List Nat)
    (h1 : ∀ c, s.head? = some c → isSpaceCh c = false)
    (h2 : ∀ c, s.getLast? = some c → isSpaceCh c = false) :
    pyStrip (32 :: s) = s := by
  have e1 : (32 :: s).dropWhile isSpaceCh = s.dropWhile isSpaceCh := by
    rw [List.dropWhile_cons]
    simp [isSpaceCh]
  have e2 : pyStrip (32 :: s) = pyStrip s := by
    unfold pyStrip
    rw [e1]
  rw [e2]
  exact pyStrip_eq_self s h1 h2

/-! Facts about the joined line of a window of alphabetic tokens -/

theorem joinSpace_head_alpha (a : List (List Nat))
    (ha : ∀ t ∈ a, pyIsAlpha t = true) (hne : a ≠ []) :
    ∃ c, (joinSpace a).head? = some c ∧ isAlphaCh c = true := by
  cases a with
  | nil => exact absurd rfl hne
  | cons t ws =>
      have ht := pyIsAlpha_spec t (ha t (by simp))
      obtain ⟨c, cs, hcc⟩ := List.exists_cons_of_ne_nil ht.1
      refine ⟨c, ?_, ?_⟩
      · rw [joinSpace_head? t ws ht.1, hcc]
        rfl
      · exact ht.2 c (by rw [hcc]; simp)

theorem joinSpace_last_alpha (a : List (List Nat))
    (ha : ∀ t ∈ a, pyIsAlpha t = true) (hne : a ≠ []) :
    ∃ c, (joinSpace a).getLast? = some c ∧ isAlphaCh c = true := by
  have hlast : a.getLast? = some (a.getLast hne) := List.getLast?_eq_getLast a hne
  have ht := pyIsAlpha_spec _ (ha _ (List.getLast_mem hne))
  have hJ := joinSpace_getLast? a (a.getLast hne) hlast ht.1
  refine ⟨(a.getLast hne).getLast ht.1, ?_, ?_⟩
  · rw [hJ, List.getLast?_eq_getLast _ ht.1]
  · exact ht.2 _ (List.getLast_mem ht.1)

theorem eos_suf_false (line : List Nat) (c : Nat)
    (hlast : line.getLast? = some c) (hc : isAlphaCh c = true) :
    eos.isSuffixOf line = false := by
  cases h : eos.isSuffixOf line with
  | false => rfl
  | true =>
      exfalso
      obtain ⟨u, hu⟩ := isSufBridge.mp h
      rw [← hu, List.getLast?_append, show eos.getLast? = some 62 from rfl] at hlast
      simp at hlast
      exact absurd hlast.symm (alphaCh_ne c hc).2.1

theorem eos_pre_false (line : List Nat) (c : Nat)
    (hhead : line.head? = some c) (hc : isAlphaCh c = true) :
    eos.isPrefixOf line = false := by
  cases h : eos.isPrefixOf line with
  | false => rfl
  | true =>
      exfalso
      obtain ⟨u, hu⟩ := isPreBridge.mp h
      rw [← hu] at hhead
      have : c = 60 := by
        have : (eos ++ u).head? = some 60 := rfl
        rw [this] at hhead
        exact (Option.some.injEq _ _ ▸ hhead).symm
      exact absurd this (alphaCh_ne c hc).1

/-! The three trimming branches on well-formed windows -/

theorem trim_trailing (a : List (List Nat))
    (ha : ∀ t ∈ a, pyIsAlpha t = true) (hne : a ≠ []) :
    trimLine (joinSpace (a ++ [eos])) = some (joinSpace a ++ [32, 60]) := by
  obtain ⟨ch, hch, hcha⟩ := joinSpace_head_alpha a ha hne
  have hJ : joinSpace (a ++ [eos]) = (joinSpace a ++ [32]) ++ eos := by
    rw [joinSpace_append a [eos] hne (by simp)]
    simp [joinSpace]
  have h60 : (60 : Nat) ∉ joinSpace a ++ [32] := by
    intro hm
    rcases List.mem_append.mp hm with hm1 | hm2
    · exact not60_joinSpace a ha hm1
    · simp at hm2
  have hinf : hasSub eos (joinSpace (a ++ [eos])) = true := by
    rw [hasSub_iff, hJ]
    exact ⟨joinSpace a ++ [32], [], by simp⟩
  have hsuf : eos.isSuffixOf (joinSpace (a ++ [eos])) = true := by
    rw [isSufBridge, hJ]
    exact ⟨joinSpace a ++ [32], rfl⟩
  rw [trimLine, if_pos hinf, if_pos hsuf, hJ]
  have hlen : ((joinSpace a ++ [32]) ++ eos).length - 4 =
      (joinSpace a ++ [32]).length + 1 := by
    simp [eos]
  rw [hlen, List.take_append_eq_append_take,
    List.take_of_length_le (by omega), Nat.add_sub_cancel_left,
    show eos.take 1 = [60] from rfl]
  have hstrip : pyStrip ((joinSpace a ++ [32]) ++ [60]) =
      (joinSpace a ++ [32]) ++ [60] := by
    apply pyStrip_eq_self
    · intro d hd
      rw [List.head?_append, List.head?_append, hch] at hd
      simp at hd
      rw [← hd]
      exact (alphaCh_ne ch hcha).2.2
    · intro d hd
      rw [List.getLast?_append, show ([60] : List Nat).getLast? = some 60
        from rfl] at hd
      simp at hd
      rw [← hd]
      decide
  rw [hstrip]
  simp

theorem trim_leading (b : List (List Nat))
    (hb : ∀ t ∈ b, pyIsAlpha t = true) (hne : b ≠ []) :
    trimLine (joinSpace (eos :: b)) = some (62 :: 32 :: joinSpace b) := by
  obtain ⟨cl, hcl, hcla⟩ := joinSpace_last_alpha b hb hne
  have hJ : joinSpace (eos :: b) = eos ++ 32 :: joinSpace b :=
    joinSpace_cons eos b hne
  have hinf : hasSub eos (joinSpace (eos :: b)) = true := by
    rw [hasSub_iff, hJ]
    exact ⟨[], 32 :: joinSpace b, by simp⟩
  have hlastline : (joinSpace (eos :: b)).getLast? = some cl := by
    rw [hJ, show eos ++ 32 :: joinSpace b = (eos ++ [32]) ++ joinSpace b by simp,
      List.getLast?_append, hcl]
    rfl
  have hsuf : eos.isSuffixOf (joinSpace (eos :: b)) = false :=
    eos_suf_false _ cl hlastline hcla
  have hpre : eos.isPrefixOf (joinSpace (eos :: b)) = true := by
    rw [isPreBridge, hJ]
    exact ⟨32 :: joinSpace b, rfl⟩
  rw [trimLine, if_pos hinf, if_neg (by simp [hsuf]), if_pos hpre, hJ,
    List.drop_append_eq_append_drop,
    show eos.drop 4 = [62] from rfl]
  have hdrop : (32 :: joinSpace b).drop (4 - eos.length) = 32 :: joinSpace b := by
    simp [eos]
  rw [hdrop]
  have hstrip : pyStrip ([62] ++ 32 :: joinSpace b) = [62] ++ 32 :: joinSpace b := by
    apply pyStrip_eq_self
    · intro d hd
      simp at hd
      rw [← hd]
      decide
    · intro d hd
      rw [show ([62] : List Nat) ++ 32 :: joinSpace b =
          ([62, 32] ++ joinSpace b) by simp,
        List.getLast?_append, hcl] at hd
      simp at hd
      rw [← hd]
      exact (alphaCh_ne cl hcla).2.2
  rw [show ([62] : List Nat) ++ 32 :: joinSpace b = 62 :: 32 :: joinSpace b
    from rfl] at hstrip
  rw [show ([62] : List Nat) ++ 32 :: joinSpace b = 62 :: 32 :: joinSpace b
    from rfl, hstrip]

theorem trim_interior (a b : List (List Nat))
    (ha : ∀ t ∈ a, pyIsAlpha t = true) (hb : ∀ t ∈ b, pyIsAlpha t = true)
    (hna : a ≠ []) (hnb : b ≠ []) :
    trimLine (joinSpace (a ++ eos :: b)) =
      some (if (joinSpace b).length < (joinSpace a).length
            then joinSpace a else joinSpace b) := by
  obtain ⟨ch, hch, hcha⟩ := joinSpace_head_alpha a ha hna
  obtain ⟨cl, hcl, hcla⟩ := joinSpace_last_alpha b hb hnb
  obtain ⟨chb, hchb, hchba⟩ := joinSpace_head_alpha b hb hnb
  obtain ⟨cla, hcla2, hclaa⟩ := joinSpace_last_alpha a ha hna
  have hJ : joinSpace (a ++ eos :: b) =
      (joinSpace a ++ [32]) ++ eos ++ (32 :: joinSpace b) := by
    rw [joinSpace_append a (eos :: b) hna (by simp),
      joinSpace_cons eos b hnb]
    simp
  have h60A : (60 : Nat) ∉ joinSpace a ++ [32] := by
    intro hm
    rcases List.mem_append.mp hm with hm1 | hm2
    · exact not60_joinSpace a ha hm1
    · simp at hm2
  have h60B : (60 : Nat) ∉ 32 :: joinSpace b := by
    intro hm
    rcases List.mem_cons.mp hm with hm1 | hm2
    · simp at hm1
    · exact not60_joinSpace b hb hm2
  have hinf : hasSub eos (joinSpace (a ++ eos :: b)) = true := by
    rw [hasSub_iff, hJ]
    exact ⟨joinSpace a ++ [32], 32 :: joinSpace b, by simp⟩
  have hlastline : (joinSpace (a ++ eos :: b)).getLast? = some cl := by
    rw [hJ, show (joinSpace a ++ [32]) ++ eos ++ (32 :: joinSpace b) =
        ((joinSpace a ++ [32]) ++ eos ++ [32]) ++ joinSpace b by simp,
      List.getLast?_append, hcl]
    rfl
  have hheadline : (joinSpace (a ++ eos :: b)).head? = some ch := by
    rw [hJ, List.head?_append, List.head?_append, List.head?_append, hch]
    rfl
  have hsuf : eos.isSuffixOf (joinSpace (a ++ eos :: b)) = false :=
    eos_suf_false _ cl hlastline hcla
  have hpre : eos.isPrefixOf (joinSpace (a ++ eos :: b)) = false :=
    eos_pre_false _ ch hheadline hcha
  have hsplit : splitEos (joinSpace (a ++ eos :: b)) =
      [joinSpace a ++ [32], 32 :: joinSpace b] := by
    rw [hJ]
    exact splitEos_pair _ _ h60A h60B
  rw [trimLine, if_pos hinf, if_neg (by simp [hsuf]), if_neg (by simp [hpre]),
    hsplit]
  show some (pyStrip (if (32 :: joinSpace b).length < (joinSpace a ++ [32]).length
      then joinSpace a ++ [32] else 32 :: joinSpace b)) = _
  have hstripA : pyStrip (joinSpace a ++ [32]) = joinSpace a := by
    apply pyStrip_snoc_space
    · intro d hd
      rw [hch] at hd
      simp at hd
      rw [← hd]
      exact (alphaCh_ne ch hcha).2.2
    · intro d hd
      rw [hcla2] at hd
      simp at hd
      rw [← hd]
      exact (alphaCh_ne cla hclaa).2.2
  have hstripB : pyStrip (32 :: joinSpace b) = joinSpace b := by
    apply pyStrip_cons_space
    · intro d hd
      rw [hchb] at hd
      simp at hd
      rw [← hd]
      exact (alphaCh_ne chb hchba).2.2
    · intro d hd
      rw [hcl] at hd
      simp at hd
      rw [← hd]
      exact (alphaCh_ne cl hcla).2.2
  rw [apply_ite pyStrip, hstripA, hstripB]
  have hcond : ((32 :: joinSpace b).length < (joinSpace a ++ [32]).length) ↔
      ((joinSpace b).length < (joinSpace a).length) := by
    simp
  rw [if_congr hcond rfl rfl]

theorem infix_append_left_any (x l₁ l₂ : List Nat) (h : l₁ <:+: l₂) :
    l₁ <:+: x ++ l₂ := by
  obtain ⟨s, u, hh⟩ := h
  exact ⟨x ++ s, u, by rw [← hh]; simp⟩

theorem mem_infix_joinSpace (t : List Nat) :
    ∀ w : List (List Nat), t ∈ w → t <:+: joinSpace w := by
  intro w
  induction w with
  | nil => simp
  | cons x ws ih =>
      intro ht
      rcases List.mem_cons.mp ht with rfl | hmem
      · cases ws with
        | nil => exact List.infix_refl _
        | cons a as =>
            rw [joinSpace_cons t (a :: as) (by simp)]
            exact ⟨[], 32 :: joinSpace (a :: as), by simp⟩
      · have hws : ws ≠ [] := List.ne_nil_of_mem hmem
        rw [joinSpace_cons x ws hws]
        exact infix_append_left_any x _ _
          (List.infix_cons_iff.mpr (Or.inr (ih hmem)))

/-! Claims C1-C4: the window trimming policy -/

/-- Claim C1, amended: for every candidate window made of alphabetic tokens
that contains exactly one boundary marker, if the window is not discarded then
the produced window does not contain the marker anywhere.  (The claim as
stated, for any number of markers, is refuted by `c1_counterexample`.) -/
theorem c1_single_marker_trimmed (a b : List (List Nat))
    (ha : ∀ t ∈ a, pyIsAlpha t = true) (hb : ∀ t ∈ b, pyIsAlpha t = true)
    (hlen : a.length + b.length = 10) (r : List Nat)
    (hr : trimLine (joinSpace (a ++ eos :: b)) = some r) :
    hasSub eos r = false := by
  cases b with
  | nil =>
      have hna : a ≠ [] := by
        intro h
        rw [h] at hlen
        simp at hlen
      rw [trim_trailing a ha hna] at hr
      injection hr with hr
      subst hr
      rw [show joinSpace a ++ [32, 60] = (joinSpace a ++ [32]) ++ [60] by simp]
      apply hasSub_eos_snoc60
      intro hm
      rcases List.mem_append.mp hm with hm1 | hm2
      · exact not60_joinSpace a ha hm1
      · simp at hm2
  | cons b0 bs =>
      cases a with
      | nil =>
          rw [show ([] : List (List Nat)) ++ eos :: b0 :: bs = eos :: b0 :: bs
              from rfl, trim_leading (b0 :: bs) hb (by simp)] at hr
          injection hr with hr
          subst hr
          apply hasSub_eos_false
          intro hm
          rcases List.mem_cons.mp hm with h1 | hm2
          · simp at h1
          · rcases List.mem_cons.mp hm2 with h2 | hm3
            · simp at h2
            · exact not60_joinSpace (b0 :: bs) hb hm3
      | cons a0 as =>
          rw [trim_interior (a0 :: as) (b0 :: bs) ha hb (by simp) (by simp)] at hr
          injection hr with hr
          subst hr
          split
          · exact hasSub_eos_false _ (not60_joinSpace (a0 :: as) ha)
          · exact hasSub_eos_false _ (not60_joinSpace (b0 :: bs) hb)

/-- Claim C1 counterexample: the 11-token window with the marker at both ends
contains the marker, is not discarded, and the produced window still contains
the marker. -/
theorem c1_counterexample :
    hasSub eos (joinSpace winC1) = true ∧
    (trimLine (joinSpace winC1)).map (hasSub eos) = some true := by decide

/-- Witness for claim C1 at the trailing-marker window a..j,eos. -/
theorem c1_witness : hasSub eos (strN ("a b c d e f g h i j <")) = false :=
  c1_single_marker_trimmed aW10 [] (by decide) (by decide) (by decide) _
    (by decide)

/-- Claim C2: the code evaluated on a window whose trailing (resp. leading)
token is the marker.  `line[:-4]` and `line[4:]` remove only four of the five
marker characters, so the produced window is the remainder plus a stray
residue character and is not the join of the ten remaining tokens. -/
theorem c2_edge_trim_residue :
    trimLine (joinSpace (aW10 ++ [eos])) = some (strN ("a b c d e f g h i j <")) ∧
    trimLine (joinSpace (eos :: aW10)) = some (strN ("> a b c d e f g h i j")) ∧
    strN ("a b c d e f g h i j <") ≠ joinSpace aW10 ∧
    strN ("> a b c d e f g h i j") ≠ joinSpace aW10 := by decide

/-- Claim C3: a candidate window of alphabetic tokens with exactly one
interior marker trims to the longer side by character count, the back side on
ties (the comparison `len(front) > len(back)` compares the sides with their
adjoining space, which orders exactly like the bare sides). -/
theorem c3_interior_keeps_longer_side (a b : List (List Nat))
    (ha : ∀ t ∈ a, pyIsAlpha t = true) (hb : ∀ t ∈ b, pyIsAlpha t = true)
    (hna : a ≠ []) (hnb : b ≠ []) (_hlen : a.length + b.length = 10) :
    trimLine (joinSpace (a ++ eos :: b)) =
      some (if (joinSpace b).length < (joinSpace a).length
            then joinSpace a else joinSpace b) :=
  trim_interior a b ha hb hna hnb

/-- Witness for claim C3: front side "ab", back side "c d e f g h i j k". -/
theorem c3_witness :
    trimLine (joinSpace (aC3 ++ eos :: bC3)) =
      some (if (joinSpace bC3).length < (joinSpace aC3).length
            then joinSpace aC3 else joinSpace bC3) :=
  c3_interior_keeps_longer_side aC3 bC3 (by decide) (by decide) (by decide)
    (by decide) (by decide)

/-- Claim C4, amended: a candidate window with at least two markers, none of
which is the leading or trailing token, is discarded, and the discard only
skips that window: the outputs of the windows before and after it are
unchanged.  (With a marker at a window edge the claim as stated fails, see
`c4_counterexample`.) -/
theorem c4_interior_multi_marker_discarded (w : List (List Nat))
    (hw : ∀ t ∈ w, pyIsAlpha t = true ∨ t = eos)
    (hc : 2 ≤ w.count eos)
    (hh : ∀ t, w.head? = some t → pyIsAlpha t = true)
    (hl : ∀ t, w.getLast? = some t → pyIsAlpha t = true)
    (hlen : w.length = winLength)
    (ws₁ ws₂ : List (List (List Nat))) :
    trimLine (joinSpace w) = none ∧
    (ws₁ ++ w :: ws₂).filterMap (fun v => trimLine (joinSpace v)) =
      ws₁.filterMap (fun v => trimLine (joinSpace v)) ++
      ws₂.filterMap (fun v => trimLine (joinSpace v)) := by
  have hne : w ≠ [] := by
    intro h
    rw [h] at hlen
    simp [winLength] at hlen
  have hmem : eos ∈ w := List.count_pos_iff.mp (by omega)
  have hinf : hasSub eos (joinSpace w) = true :=
    (hasSub_iff eos _).mpr (mem_infix_joinSpace eos w hmem)
  obtain ⟨t0, rest, hw0⟩ := List.exists_cons_of_ne_nil hne
  have ht0 : pyIsAlpha t0 = true := hh t0 (by rw [hw0]; rfl)
  have ht0s := pyIsAlpha_spec t0 ht0
  obtain ⟨c0, cs0, hc0⟩ := List.exists_cons_of_ne_nil ht0s.1
  have hhead : (joinSpace w).head? = some c0 := by
    rw [hw0, joinSpace_head? t0 rest ht0s.1, hc0]
    rfl
  have hc0a : isAlphaCh c0 = true := ht0s.2 c0 (by rw [hc0]; simp)
  have htl : pyIsAlpha (w.getLast hne) = true :=
    hl _ (List.getLast?_eq_getLast w hne)
  have htls := pyIsAlpha_spec _ htl
  have hlastJ : (joinSpace w).getLast? = (w.getLast hne).getLast? :=
    joinSpace_getLast? w _ (List.getLast?_eq_getLast w hne) htls.1
  have hcl : (joinSpace w).getLast? = some ((w.getLast hne).getLast htls.1) := by
    rw [hlastJ, List.getLast?_eq_getLast _ htls.1]
  have hcla : isAlphaCh ((w.getLast hne).getLast htls.1) = true :=
    htls.2 _ (List.getLast_mem htls.1)
  have hsuf : eos.isSuffixOf (joinSpace w) = false :=
    eos_suf_false _ _ hcl hcla
  have hpre : eos.isPrefixOf (joinSpace w) = false :=
    eos_pre_false _ _ hhead hc0a
  have hsplitlen : (splitEos (joinSpace w)).length = w.count eos + 1 :=
    splitEosAux_join_length w [] hw
  obtain ⟨x, y, z, rs, hsp⟩ :
      ∃ x y z rs, splitEos (joinSpace w) = x :: y :: z :: rs := by
    rcases hs : splitEos (joinSpace w) with _ | ⟨x, _ | ⟨y, _ | ⟨z, rs⟩⟩⟩
    · rw [hs] at hsplitlen
      simp only [List.length_nil] at hsplitlen
      omega
    · rw [hs] at hsplitlen
      simp only [List.length_cons, List.length_nil] at hsplitlen
      omega
    · rw [hs] at hsplitlen
      simp only [List.length_cons, List.length_nil] at hsplitlen
      omega
    · exact ⟨x, y, z, rs, rfl⟩
  have hnone : trimLine (joinSpace w) = none := by
    rw [trimLine, if_pos hinf, if_neg (by simp [hsuf]), if_neg (by simp [hpre]),
      hsp]
  refine ⟨hnone, ?_⟩
  rw [List.filterMap_append, List.filterMap_cons, hnone]

/-- Claim C4 counterexample: an 11-token candidate window with two markers
(one of them trailing) is kept, not discarded: the 12-token stream built from
it produces a nonempty sequence list containing its trimmed line. -/
theorem c4_counterexample :
    List.count eos winC1 = 2 ∧
    sequences (winC1 ++ [[122]]) = [strN ("<eos> a b c d e f g h i <")] := by
  decide

/-- Witness for claim C4 at a window with two interior markers. -/
theorem c4_witness :
    trimLine (joinSpace wC4) = none ∧
    (([] : List (List (List Nat))) ++ wC4 :: []).filterMap
        (fun v => trimLine (joinSpace v)) =
      ([] : List (List (List Nat))).filterMap (fun v => trimLine (joinSpace v)) ++
      ([] : List (List (List Nat))).filterMap (fun v => trimLine (joinSpace v)) :=
  c4_interior_multi_marker_discarded wC4 (by decide) (by decide) (by decide)
    (by decide) (by decide) [] []

/-! Claim C10: window loop bounds -/

/-- Claim C10: the windower considers exactly `len - 11` candidate windows
(natural subtraction, so `max(0, len - 11)`), every candidate window is drawn
from the tokens before the last one (the final token never appears in any
window, in particular never as a target), and a stream of at most 11 tokens
produces no training example. -/
theorem c10_window_bounds (toks : List (List Nat)) :
    (candidateWindows toks).length = toks.length - winLength ∧
    (∀ w ∈ candidateWindows toks, w <:+: toks.dropLast) ∧
    (toks.length ≤ winLength → sequences toks = []) := by
  refine ⟨by simp [candidateWindows], ?_, ?_⟩
  · intro w hw
    obtain ⟨j, hj, rfl⟩ := List.mem_map.mp hw
    have hj2 : j < toks.length - winLength := List.mem_range.mp hj
    have hle : j + winLength ≤ toks.length - 1 := by
      simp only [winLength] at hj2 ⊢
      omega
    have h1 : (toks.drop j).take winLength <:+ toks.take (j + winLength) :=
      ⟨toks.take j, (List.take_add toks j winLength).symm⟩
    have h2 : toks.take (j + winLength) <+: toks.take (toks.length - 1) := by
      refine ⟨(toks.take (toks.length - 1)).drop (j + winLength), ?_⟩
      have e : (toks.take (toks.length - 1)).take (j + winLength) =
          toks.take (j + winLength) := by
        rw [List.take_take, min_eq_left hle]
      rw [← e]
      exact List.take_append_drop _ _
    rw [List.dropLast_eq_take]
    exact h1.isInfix.trans h2.isInfix
  · intro h
    have h0 : toks.length - winLength = 0 := by
      simp only [winLength] at h ⊢
      omega
    rw [sequences, candidateWindows, h0]
    rfl

/-- Witness for claim C10: the first window of a 13-token stream stays inside
the first 12 tokens, and an 11-token stream produces nothing. -/
theorem c10_witness :
    ((ex13.drop 0).take winLength <:+: ex13.dropLast) ∧ sequences ex11 = [] :=
  ⟨(c10_window_bounds ex13).2.1 _ (by decide),
   (c10_window_bounds ex11).2.2 (by decide)⟩

/-! Tokenizer lemmas (cells 9, 10, 17) -/

theorem any_key_iff (acc : List (List Nat × Nat)) (w : List Nat) :
    acc.any (fun p => p.1 == w) = true ↔ w ∈ acc.map Prod.fst := by
  rw [List.any_eq_true]
  constructor
  · rintro ⟨p, hp, hpe⟩
    exact List.mem_map.mpr ⟨p, hp, beq_iff_eq.mp hpe⟩
  · rintro h
    obtain ⟨p, hp, hpe⟩ := List.mem_map.mp h
    exact ⟨p, hp, beq_iff_eq.mpr hpe⟩

theorem bump_keys (acc : List (List Nat × Nat)) (w : List Nat) :
    (bump acc w).map Prod.fst =
      if w ∈ acc.map Prod.fst then acc.map Prod.fst
      else acc.map Prod.fst ++ [w] := by
  rw [bump]
  by_cases h : w ∈ acc.map Prod.fst
  · rw [if_pos ((any_key_iff acc w).mpr h), if_pos h, List.map_map]
    apply List.map_congr_left
    intro p hp
    simp only [Function.comp_apply]
    split <;> rfl
  · rw [if_neg (fun hc => h ((any_key_iff acc w).mp hc)), if_neg h,
      List.map_append]
    rfl

theorem foldl_bump_keys_mem (ws : List (List Nat)) :
    ∀ (acc : List (List Nat × Nat)) (x : List Nat),
      x ∈ (ws.foldl bump acc).map Prod.fst ↔ x ∈ acc.map Prod.fst ∨ x ∈ ws := by
  induction ws with
  | nil => intro acc x; simp
  | cons w ws ih =>
      intro acc x
      rw [List.foldl_cons, ih, bump_keys]
      by_cases h : w ∈ acc.map Prod.fst
      · rw [if_pos h]
        constructor
        · rintro (h1 | h2)
          · exact Or.inl h1
          · exact Or.inr (List.mem_cons_of_mem w h2)
        · rintro (h1 | h2)
          · exact Or.inl h1
          · rcases List.mem_cons.mp h2 with rfl | h3
            · exact Or.inl h
            · exact Or.inr h3
      · rw [if_neg h]
        simp only [List.mem_append, List.mem_cons, List.mem_singleton]
        tauto

theorem foldl_bump_keys_nodup (ws : List (List Nat)) :
    ∀ acc : List (List Nat × Nat), (acc.map Prod.fst).Nodup →
      ((ws.foldl bump acc).map Prod.fst).Nodup := by
  induction ws with
  | nil => intro acc h; exact h
  | cons w ws ih =>
      intro acc h
      rw [List.foldl_cons]
      apply ih
      rw [bump_keys]
      by_cases hm : w ∈ acc.map Prod.fst
      · rw [if_pos hm]
        exact h
      · rw [if_neg hm, List.nodup_append]
        refine ⟨h, List.nodup_singleton w, ?_⟩
        intro a ha hb
        rw [List.mem_singleton] at hb
        subst hb
        exact hm ha

theorem insDesc_perm (x : List Nat × Nat) (l : List (List Nat × Nat)) :
    (insDesc x l).Perm (x :: l) := by
  induction l with
  | nil => exact List.Perm.refl _
  | cons y ys ih =>
      rw [insDesc]
      split
      · exact List.Perm.refl _
      · exact (ih.cons y).trans (List.Perm.swap x y ys)

theorem sortDesc_perm (l : List (List Nat × Nat)) : (sortDesc l).Perm l := by
  induction l with
  | nil => exact List.Perm.refl _
  | cons x xs ih => exact (insDesc_perm x (sortDesc xs)).trans (ih.cons x)

theorem word_index_keys (texts : List (List Nat)) :
    (word_index texts).map Prod.fst = sorted_voc texts := by
  rw [word_index, List.map_map]
  have h : (Prod.fst ∘ fun p : Nat × List Nat => (p.2, p.1 + 1)) = Prod.snd :=
    rfl
  rw [h, List.enum_map_snd]

theorem word_index_ids (texts : List (List Nat)) :
    (word_index texts).map Prod.snd =
      (List.range (sorted_voc texts).length).map (· + 1) := by
  rw [word_index, List.map_map]
  have h : (Prod.snd ∘ fun p : Nat × List Nat => (p.2, p.1 + 1)) =
      ((· + 1) ∘ Prod.fst) := rfl
  rw [h, ← List.map_map, List.enum_map_fst]

theorem word_index_ids_nodup (texts : List (List Nat)) :
    ((word_index texts).map Prod.snd).Nodup := by
  rw [word_index_ids]
  exact (List.nodup_range _).map (fun a b h => by omega)

theorem word_index_keys_nodup (texts : List (List Nat)) :
    ((word_index texts).map Prod.fst).Nodup := by
  rw [word_index_keys, sorted_voc]
  apply ((sortDesc_perm (word_counts texts)).map Prod.fst).nodup_iff.mpr
  exact foldl_bump_keys_nodup _ [] (by simp)

theorem word_index_keys_mem (texts : List (List Nat)) (x : List Nat) :
    x ∈ (word_index texts).map Prod.fst ↔
      x ∈ texts.flatMap text_to_word_sequence := by
  rw [word_index_keys, sorted_voc,
    ((sortDesc_perm (word_counts texts)).map Prod.fst).mem_iff,
    word_counts, foldl_bump_keys_mem]
  simp

theorem find_key_of_nodup {α β : Type} [BEq α] [LawfulBEq α]
    (l : List (α × β)) (a : α) (b : β)
    (hnd : (l.map Prod.fst).Nodup) (hm : (a, b) ∈ l) :
    l.find? (fun p => p.1 == a) = some (a, b) := by
  induction l with
  | nil => simp at hm
  | cons x xs ih =>
      rw [List.map_cons, List.nodup_cons] at hnd
      by_cases hx : (x.1 == a) = true
      · rw [@List.find?_cons_of_pos (α × β) (fun p => p.1 == a) x xs hx]
        rcases List.mem_cons.mp hm with rfl | hm2
        · rfl
        · exfalso
          have ha : a ∈ xs.map Prod.fst := List.mem_map.mpr ⟨(a, b), hm2, rfl⟩
          rw [beq_iff_eq.mp hx] at hnd
          exact hnd.1 ha
      · rw [@List.find?_cons_of_neg (α × β) (fun p => p.1 == a) x xs hx]
        apply ih hnd.2
        rcases List.mem_cons.mp hm with rfl | hm2
        · exact absurd (beq_iff_eq.mpr rfl) hx
        · exact hm2

theorem lookupId_mem (wi : List (List Nat × Nat)) (w : List Nat)
    (h : w ∈ wi.map Prod.fst) : ∃ i, lookupId wi w = some i := by
  induction wi with
  | nil => simp at h
  | cons x xs ih =>
      by_cases hx : (x.1 == w) = true
      · exact ⟨x.2, by
          rw [lookupId,
            @List.find?_cons_of_pos (List Nat × Nat) (fun p => p.1 == w) x xs hx]
          rfl⟩
      · rw [List.map_cons, List.mem_cons] at h
        rcases h with h1 | h2
        · exact absurd (beq_iff_eq.mpr h1.symm) hx
        · obtain ⟨i, hi⟩ := ih h2
          exact ⟨i, by
            rw [lookupId,
              @List.find?_cons_of_neg (List Nat × Nat) (fun p => p.1 == w) x xs hx]
            exact hi⟩

theorem encode_decode (texts : List (List Nat)) (w : List Nat) (i : Nat)
    (h : lookupId (word_index texts) w = some i) :
    lookupWord (index_word_lookup (word_index texts)) i = some w := by
  rw [lookupId] at h
  obtain ⟨p, hp, hpi⟩ :
      ∃ p, (word_index texts).find? (fun q => q.1 == w) = some p ∧ p.2 = i := by
    cases hf : (word_index texts).find? (fun q => q.1 == w) with
    | none => rw [hf] at h; simp at h
    | some p =>
        rw [hf] at h
        exact ⟨p, rfl, by simpa using h⟩
  have hfind := List.find?_some hp
  have hpw : p.1 = w := beq_iff_eq.mp hfind
  have hpm : p ∈ word_index texts := List.mem_of_find?_eq_some hp
  have hm2 : (i, w) ∈ index_word_lookup (word_index texts) := by
    rw [index_word_lookup]
    exact List.mem_map.mpr ⟨p, hpm, by rw [hpw, hpi]⟩
  have hnd : ((index_word_lookup (word_index texts)).map Prod.fst).Nodup := by
    rw [index_word_lookup, List.map_map]
    have h2 : (Prod.fst ∘ fun q : List Nat × Nat => (q.2, q.1)) = Prod.snd :=
      rfl
    rw [h2]
    exact word_index_ids_nodup texts
  rw [lookupWord, find_key_of_nodup _ i w hnd hm2]
  rfl

theorem roundtrip_words (texts : List (List Nat)) (ws : List (List Nat))
    (hws : ∀ u ∈ ws, u ∈ texts.flatMap text_to_word_sequence) :
    (ws.filterMap (lookupId (word_index texts))).filterMap
      (lookupWord (index_word_lookup (word_index texts))) = ws := by
  induction ws with
  | nil => rfl
  | cons u us ih =>
      have hu : u ∈ (word_index texts).map Prod.fst :=
        (word_index_keys_mem texts u).mpr (hws u (by simp))
      obtain ⟨i, hi⟩ := lookupId_mem _ u hu
      rw [List.filterMap_cons, hi]
      show (i :: us.filterMap (lookupId (word_index texts))).filterMap
          (lookupWord (index_word_lookup (word_index texts))) = u :: us
      rw [List.filterMap_cons, encode_decode texts u i hi]
      show u :: (us.filterMap (lookupId (word_index texts))).filterMap
          (lookupWord (index_word_lookup (word_index texts))) = u :: us
      rw [ih (fun v hv => hws v (List.mem_cons_of_mem u hv))]

theorem word_index_length (texts : List (List Nat)) :
    (word_index texts).length =
      (texts.flatMap text_to_word_sequence).dedup.length := by
  have h1 : (word_index texts).length = (sorted_voc texts).length := by
    rw [word_index]
    simp
  have h2 : (sorted_voc texts).length = (word_counts texts).length := by
    rw [sorted_voc, List.length_map]
    exact (sortDesc_perm _).length_eq
  have hkeys : ((word_counts texts).map Prod.fst).Nodup :=
    foldl_bump_keys_nodup _ [] (by simp)
  have hmem : ∀ x, x ∈ (word_counts texts).map Prod.fst ↔
      x ∈ (texts.flatMap text_to_word_sequence).dedup := by
    intro x
    rw [word_counts, foldl_bump_keys_mem, List.mem_dedup]
    simp
  have hperm : ((word_counts texts).map Prod.fst).Perm
      (texts.flatMap text_to_word_sequence).dedup :=
    (List.perm_ext_iff_of_nodup hkeys (List.nodup_dedup _)).mpr hmem
  rw [h1, h2,
    show (word_counts texts).length =
      ((word_counts texts).map Prod.fst).length from
      (List.length_map _ _).symm]
  exact hperm.length_eq

/-! Claims C5-C9 -/

/-- Claim C5, amended: every produced training example after left-padding has
length equal to the longest observed encoded sequence length (the `maxlen`
passed to `pad_sequences`), which is at most, but not always equal to, the
fixed window size (see `c5_counterexample`). -/
theorem c5_padded_length (toks : List (List Nat)) (r : List Nat)
    (hr : r ∈ input_sequences toks) : r.length = max_sequence_len toks := by
  rw [input_sequences, pad_sequences] at hr
  obtain ⟨s, hs, rfl⟩ := List.mem_map.mp hr
  rw [padPre]
  split
  · rename_i h
    rw [List.length_drop]
    omega
  · rename_i h
    rw [List.length_append, List.length_replicate]
    omega

/-- Claim C5 counterexample: on the stream a..e, eos, f..j, z the single
window is trimmed to five tokens, so every padded example has length 5, not
the fixed window size. -/
theorem c5_counterexample :
    ¬ ∀ r ∈ input_sequences ex5, r.length = winLength := by decide

/-- Witness for claim C5 at the stream `ex5`. -/
theorem c5_witness : ([1, 2, 3, 4, 5] : List Nat).length = max_sequence_len ex5 :=
  c5_padded_length ex5 [1, 2, 3, 4, 5] (by decide)

/-- Claim C6, amended: `parse_text` concatenates records with no separator and
keeps case (lowercasing happens in `clean_text`), so the marked text is
"Great food <eos>  Loved itTerrible service <eos> " and the tokens are
[great, food, eos, loved, itterrible, service, eos]: the words "it" and
"Terrible" merge into one token. -/
theorem c6_worked_example :
    parse_text exRecords =
      strN ("Great food <eos>  Loved itTerrible service <eos> ") ∧
    clean_text (parse_text exRecords) =
      [strN ("great"), strN ("food"), eos, strN ("loved"), strN ("itterrible"),
       strN ("service"), eos] := by decide

/-- Claim C6 counterexample: the token list claimed by the specification is
not what the normalizer produces on those records. -/
theorem c6_counterexample :
    clean_text (parse_text exRecords) ≠
      [strN ("great"), strN ("food"), eos, strN ("loved"), strN ("it"),
       strN ("terrible"), strN ("service"), eos] := by decide

/-- Claim C7, amended: every token output by the normalizer is lowercase and
is either purely alphabetic or contains the boundary marker as a substring;
tokens that are neither alphabetic nor contain the marker are dropped.  (The
claim as stated, with "exactly the marker literal" in place of "contains the
marker", is refuted by `c7_counterexample`.) -/
theorem c7_token_invariant (data : List (List Nat)) (w : List Nat)
    (hw : w ∈ clean_text (parse_text data)) :
    w.map lowerCh = w ∧ (pyIsAlpha w = true ∨ hasSub eos w = true) := by
  rw [clean_text] at hw
  obtain ⟨v, hv, rfl⟩ := List.mem_map.mp hw
  obtain ⟨hv2, hpred⟩ := List.mem_filter.mp hv
  constructor
  · rw [List.map_map]
    apply List.map_congr_left
    intro c _
    exact lowerCh_idem c
  · simp only [Bool.or_eq_true] at hpred
    rcases hpred with h1 | h2
    · left
      obtain ⟨hne, hall⟩ := pyIsAlpha_spec v h1
      have h1e : (v.map lowerCh).isEmpty = false := by
        cases v with
        | nil => exact absurd rfl hne
        | cons c cs => rfl
      have h2a : ∀ c ∈ v.map lowerCh, isAlphaCh c = true := by
        intro c hc
        obtain ⟨d, hd, rfl⟩ := List.mem_map.mp hc
        exact isAlphaCh_lowerCh d (hall d hd)
      rw [pyIsAlpha, h1e]
      simp only [Bool.not_false, Bool.true_and, List.all_eq_true]
      exact h2a
    · right
      obtain ⟨s, t, hst⟩ := (hasSub_iff eos v).mp h2
      apply (hasSub_iff eos _).mpr
      refine ⟨s.map lowerCh, t.map lowerCh, ?_⟩
      rw [← hst, List.map_append, List.map_append,
        show eos.map lowerCh = eos from by decide]

/-- Claim C7 counterexample: a record containing the marker glued to letters
yields the token "x<eos>y", which is kept although it is neither purely
alphabetic nor exactly the marker literal. -/
theorem c7_counterexample :
    clean_text (parse_text [strN ("x<eos>y")]) = [strN ("x<eos>y")] ∧
    ¬(pyIsAlpha (strN ("x<eos>y")) = true ∨ strN ("x<eos>y") = eos) := by decide

/-- Witness for claim C7 at the worked-example records and the token "great". -/
theorem c7_witness :
    (strN ("great")).map lowerCh = strN ("great") ∧
    (pyIsAlpha (strN ("great")) = true ∨ hasSub eos (strN ("great")) = true) :=
  c7_token_invariant exRecords (strN ("great")) (by decide)

/-- Claim C8, amended: the fitted vocabulary is a bijection, so for every
token with an id, encoding then decoding through the inverted lookup returns
the token; encoding a produced window and decoding each id yields the word
sequence the tokenizer extracts from that window (its tokens after the
default punctuation filtering), which can differ from the window's
whitespace-separated tokens when a trimming residue or a marker remains
(see `c8_counterexample`). -/
theorem c8_vocab_roundtrip (toks : List (List Nat)) :
    (∀ w i, lookupId (fittedIndex toks) w = some i →
       lookupWord (index_word_lookup (fittedIndex toks)) i = some w) ∧
    (∀ line ∈ sequences toks,
       decodeIds toks (encodeLine toks line) = text_to_word_sequence line) := by
  constructor
  · intro w i h
    exact encode_decode (sequences toks) w i h
  · intro line hline
    rw [decodeIds, encodeLine, fittedIndex]
    apply roundtrip_words
    intro u hu
    exact List.mem_flatMap.mpr ⟨line, hline, hu⟩

/-- Claim C8 counterexample: the produced window "a b c d e f g h i j <"
decodes to ten tokens (the residue "<" is dropped by the tokenizer filters),
not to its original eleven whitespace tokens. -/
theorem c8_counterexample :
    lineC8 ∈ sequences ex12 ∧
    decodeIds ex12 (encodeLine ex12 lineC8) ≠ splitWS lineC8 := by decide

/-- Witness for claim C8 on the stream `ex12`: id 1 decodes back to "a", and
the produced window round-trips to its filtered word sequence. -/
theorem c8_witness :
    lookupWord (index_word_lookup (fittedIndex ex12)) 1 = some (strN ("a")) ∧
    decodeIds ex12 (encodeLine ex12 lineC8) = text_to_word_sequence lineC8 :=
  ⟨(c8_vocab_roundtrip ex12).1 (strN ("a")) 1 (by decide),
   (c8_vocab_roundtrip ex12).2 lineC8 (by decide)⟩

/-- Claim C9, amended: `vocab_size` equals the number of distinct words the
tokenizer observes across all produced windows (after its punctuation
filtering, which drops trimming residue characters) plus one, and all
assigned ids are at least 1, with 0 left for padding.  Counting the windows
raw whitespace tokens instead makes the claim fail (see
`c9_counterexample`). -/
theorem c9_vocab_size (toks : List (List Nat)) :
    vocab_size toks =
      ((sequences toks).flatMap text_to_word_sequence).dedup.length + 1 ∧
    ∀ p ∈ fittedIndex toks, 1 ≤ p.2 := by
  constructor
  · rw [vocab_size, fittedIndex, word_index_length]
  · intro p hp
    rw [fittedIndex, word_index] at hp
    obtain ⟨q, hq, rfl⟩ := List.mem_map.mp hp
    omega

/-- Claim C9 counterexample: on the stream `ex12` the produced window has
eleven distinct whitespace tokens (including the residue "<"), but the
vocabulary has ten entries, so `vocab_size` is not that count plus one. -/
theorem c9_counterexample :
    vocab_size ex12 ≠ ((sequences ex12).flatMap splitWS).dedup.length + 1 := by
  decide

/-- Witness for claim C9 at the stream `ex12` and the entry ("a", 1). -/
theorem c9_witness :
    vocab_size ex12 =
      ((sequences ex12).flatMap text_to_word_sequence).dedup.length + 1 ∧
    1 ≤ ((strN ("a"), 1) : List Nat × Nat).2 :=
  ⟨(c9_vocab_size ex12).1, (c9_vocab_size ex12).2 (strN ("a"), 1) (by decide)⟩

